import Mathlib

/-!
Shallow embedding of the behavenet loss primitives
(behavenet/fitting/losses.py) and of the VAEGAN trainer
(behavenet/models/vaegan.py).

Tensors of shape (n_frames, ...) are modelled as lists of frames, with
each frame flattened to a list of reals; torch reductions become list
sums and means.  The beta-annealing schedule of the trainer is pure
rational arithmetic and is modelled over the rationals so that it can be
evaluated by the kernel.
-/

set_option autoImplicit false

namespace Behavenet

/-! ### Generic list helpers used by the embedding -/

/-- Elementwise combination of three lists, truncating to the shortest
(torch broadcasting of three same-shape tensors). -/
def zipWith3 {A B C D : Type} (f : A → B → C → D) : List A → List B → List C → List D
  | a :: as, b :: bs, c :: cs => f a b c :: zipWith3 f as bs cs
  | _, _, _ => []

/-- Mean of a list of reals (torch.mean of a one-dimensional tensor). -/
noncomputable def meanR (l : List ℝ) : ℝ := l.sum / l.length

/-! ### Embedding of behavenet/fitting/losses.py -/

/-- The module-level constant LN2PI = np.log(2 * np.pi). -/
noncomputable def LN2PI : ℝ := Real.log (2 * Real.pi)

/-- losses.mse: mean of squared elementwise difference, optionally
scaled by a mask before averaging. -/
noncomputable def mse (y_pred y_true : List (List ℝ)) (masks : Option (List (List ℝ))) : ℝ :=
  match masks with
  | some ms =>
      meanR (List.flatten (zipWith3
        (fun p t mr => zipWith3 (fun a b c => ((a - b) ^ 2) * c) p t mr) y_pred y_true ms))
  | none =>
      meanR (List.flatten (List.zipWith
        (fun p t => List.zipWith (fun a b => (a - b) ^ 2) p t) y_pred y_true))

/-- losses.gaussian_ll: Gaussian log-likelihood with fixed isotropic
variance, summed across the non-frame dimensions and averaged across the
batch.  The per-frame dimension count n_dims is read off the shape of
y_pred (the flattened frame length) and is not reduced by the mask. -/
noncomputable def gaussian_ll (y_pred y_mean : List (List ℝ))
    (masks : Option (List (List ℝ))) (std : ℝ) : ℝ :=
  let n_dims : ℝ := (y_pred.headI).length
  let log_var : ℝ := Real.log (std ^ 2)
  let diff_sq : List (List ℝ) :=
    match masks with
    | some ms =>
        zipWith3 (fun p t mr => zipWith3 (fun a b c => ((a - b) ^ 2) * c) p t mr)
          y_pred y_mean ms
    | none =>
        List.zipWith (fun p t => List.zipWith (fun a b => (a - b) ^ 2) p t) y_pred y_mean
  meanR (diff_sq.map
    (fun row => -(0.5 * LN2PI + 0.5 * log_var) * n_dims - (0.5 / std ^ 2) * row.sum))

/-- losses.gaussian_ll_to_mse: undo the Gaussian normalizing constant and
variance scaling of a previously computed log-likelihood scalar. -/
noncomputable def gaussian_ll_to_mse (ll : ℝ) (n_dims : ℝ) (gaussian_std mse_std : ℝ) : ℝ :=
  ((ll + (0.5 * LN2PI + 0.5 * Real.log (gaussian_std ^ 2)) * n_dims)
      * (-(gaussian_std ^ 2) / 0.5) / n_dims) * (1 / mse_std ^ 2)

/-- losses.kl_div_to_std_normal: closed-form KL divergence from a
diagonal Gaussian to the standard normal, summed across dims, averaged
across the batch. -/
noncomputable def kl_div_to_std_normal (mu logvar : List (List ℝ)) : ℝ :=
  meanR (List.zipWith
    (fun mr vr => 0.5 * (List.zipWith (fun m v => Real.exp v - v + m ^ 2 - 1) mr vr).sum)
    mu logvar)

/-- losses._gaussian_log_density_unsummed, pointwise: per-element
log-density of a diagonal Gaussian evaluated at z. -/
noncomputable def gaussian_log_density_unsummed (z mu logvar : ℝ) : ℝ :=
  -0.5 * (Real.exp (-logvar) * (z - mu) ^ 2 + logvar + LN2PI)

/-- losses._gaussian_log_density_unsummed_std_normal, pointwise. -/
noncomputable def gaussian_log_density_unsummed_std_normal (z : ℝ) : ℝ :=
  -0.5 * (z ^ 2 + LN2PI)

/-- torch.logsumexp over a one-dimensional tensor (in exact real
arithmetic the max-subtraction stabilization is the identity). -/
noncomputable def logsumexp (l : List ℝ) : ℝ := Real.log ((l.map Real.exp).sum)

/-- The broadcast tensor log_qz_prob with entries [j][i][l] equal to the
log-density of frame j sample dimension l under the posterior of frame i;
built from z[:, None], mu[None, :], logvar[None, :]. -/
noncomputable def log_qz_prob (z mu logvar : List (List ℝ)) : List (List (List ℝ)) :=
  z.map (fun zj =>
    List.zipWith (fun mui lvi => zipWith3 gaussian_log_density_unsummed zj mui lvi) mu logvar)

/-- torch.sum over dim 2 of the three-index tensor. -/
noncomputable def sum_dim2 (t : List (List (List ℝ))) : List (List ℝ) :=
  t.map (fun mj => mj.map List.sum)

/-- torch.diag of a square matrix given as a list of rows. -/
noncomputable def diagL (m : List (List ℝ)) : List ℝ :=
  (List.range m.length).map (fun j => (m.getD j []).getD j 0)

/-- torch.logsumexp over dim 1 (the i axis) of one slice [j] of the
three-index tensor, leaving the dimension axis l. -/
noncomputable def lse_dim1 (mj : List (List ℝ)) : List ℝ :=
  (List.range mj.headI.length).map (fun l => logsumexp (mj.map (fun ri => ri.getD l 0)))

/-- losses.index_code_mi: minibatch estimate of the index-code mutual
information (additive constant dropped). -/
noncomputable def index_code_mi (z mu logvar : List (List ℝ)) : ℝ :=
  let lqp := log_qz_prob z mu logvar
  let log_qz := (sum_dim2 lqp).map logsumexp
  let log_qz_diag := diagL (sum_dim2 lqp)
  meanR (List.zipWith (fun a b => a - b) log_qz_diag log_qz)

/-- losses.total_correlation: minibatch estimate of the total
correlation (additive constant dropped). -/
noncomputable def total_correlation (z mu logvar : List (List ℝ)) : ℝ :=
  let lqp := log_qz_prob z mu logvar
  let log_qz_product := lqp.map (fun mj => (lse_dim1 mj).sum)
  let log_qz := (sum_dim2 lqp).map logsumexp
  meanR (List.zipWith (fun a b => a - b) log_qz log_qz_product)

/-- losses.dimension_wise_kl_to_std_normal: minibatch estimate of the
dimension-wise KL to the standard normal prior. -/
noncomputable def dimension_wise_kl_to_std_normal (z mu logvar : List (List ℝ)) : ℝ :=
  let lqp := log_qz_prob z mu logvar
  let log_qz_product := lqp.map (fun mj => (lse_dim1 mj).sum)
  let log_pz_product :=
    z.map (fun zj => (zj.map gaussian_log_density_unsummed_std_normal).sum)
  meanR (List.zipWith (fun a b => a - b) log_qz_product log_pz_product)

/-- losses.decomposed_kl: the combined entry point computing all three
terms of the KL decomposition from one shared log_qz_prob tensor. -/
noncomputable def decomposed_kl (z mu logvar : List (List ℝ)) : ℝ × ℝ × ℝ :=
  let lqp := log_qz_prob z mu logvar
  let log_qz := (sum_dim2 lqp).map logsumexp
  let log_qz_diag := diagL (sum_dim2 lqp)
  let log_qz_product := lqp.map (fun mj => (lse_dim1 mj).sum)
  let log_pz_product :=
    z.map (fun zj => (zj.map gaussian_log_density_unsummed_std_normal).sum)
  (meanR (List.zipWith (fun a b => a - b) log_qz_diag log_qz),
   meanR (List.zipWith (fun a b => a - b) log_qz log_qz_product),
   meanR (List.zipWith (fun a b => a - b) log_qz_product log_pz_product))

/-- Dot product of two rows (one entry of torch.matmul(C, C^T)). -/
noncomputable def dotL (u v : List ℝ) : ℝ := (List.zipWith (fun a b => a * b) u v).sum

/-- The squared deviation matrix (C C^T - eye)^2 built inside
losses.subspace_overlap, with C the stacked matrix. -/
noncomputable def overlap_mat (C : List (List ℝ)) : List (List ℝ) :=
  (List.range C.length).map (fun i =>
    (List.range C.length).map (fun k =>
      (dotL (C.getD i []) (C.getD k []) - (if i = k then (1 : ℝ) else 0)) ^ 2))

/-- losses.subspace_overlap: stack A on B, compare the Gram matrix with
the identity, return the mean of the squared deviations. -/
noncomputable def subspace_overlap (A B : List (List ℝ)) : ℝ :=
  meanR (List.flatten (overlap_mat (A ++ B)))

/-! ### Embedding of behavenet/models/vaegan.py (constructor) -/

/-- The hyperparameters consumed by the VAEGAN constructor code that is
in scope for the claims. -/
structure Hparams where
  model_type : String
  vae_beta : ℚ
  vae_beta_anneal_epochs : ℕ
  max_n_epochs : ℕ

/-- The fatal error signals raised by the constructor. -/
inductive InitError where
  | notImplementedError
deriving DecidableEq

/-- np.linspace with endpoint=True over the rationals. -/
def linspace (a b : ℚ) (num : ℕ) : List ℚ :=
  if num = 0 then []
  else if num = 1 then [a]
  else (List.range num).map (fun k => a + (b - a) * k / ((num : ℚ) - 1))

/-- The beta schedule built by VAEGAN.__init__: when the annealing
window is positive, np.append(np.linspace(0, beta, anneal_epochs),
np.ones(max_n_epochs + 1)); otherwise beta * np.ones(max_n_epochs + 1). -/
def beta_vals (hp : Hparams) : List ℚ :=
  if hp.vae_beta_anneal_epochs > 0 then
    linspace 0 hp.vae_beta hp.vae_beta_anneal_epochs
      ++ List.replicate (hp.max_n_epochs + 1) 1
  else
    List.replicate (hp.max_n_epochs + 1) hp.vae_beta

/-- VAEGAN.__init__: the model_type check precedes everything else; a
linear model type raises NotImplementedError before the beta schedule is
built.  The superclass constructor holds no logic relevant to the claims
and is modelled as succeeding. -/
def vaegan_init (hp : Hparams) : Except InitError (List ℚ) :=
  if hp.model_type = "linear" then Except.error InitError.notImplementedError
  else Except.ok (beta_vals hp)

/-! ### Embedding of VAEGAN.loss (chunked ELBO) -/

/-- One chunk of VAEGAN.loss: run the per-frame forward pass fwd on the
chunk, then compute the Gaussian log-likelihood, the KL term and the
combined loss.  The forward pass is the external encoder/decoder pair,
taken deterministic and frame-wise (the scenario of the chunking claim,
with sampling disabled). -/
noncomputable def vaegan_chunk (fwd : List ℝ → List ℝ × List ℝ × List ℝ)
    (beta : ℝ) (x_in : List (List ℝ)) (m_in : Option (List (List ℝ))) : ℝ × ℝ × ℝ :=
  let outs := x_in.map fwd
  let x_hat := outs.map (fun o => o.1)
  let mu := outs.map (fun o => o.2.1)
  let logvar := outs.map (fun o => o.2.2)
  let loss_ll := gaussian_ll x_in x_hat m_in 1
  let loss_kl := kl_div_to_std_normal mu logvar
  (-loss_ll + beta * loss_kl, loss_ll, loss_kl)

/-- The contribution of one chunk to the four accumulated scalars of
VAEGAN.loss, already weighted by the chunk size. -/
noncomputable def chunk_contrib (fwd : List ℝ → List ℝ × List ℝ × List ℝ)
    (x : List (List ℝ)) (m : Option (List (List ℝ))) (beta : ℝ)
    (chunk_size : ℕ) (chunk : ℕ) : ℝ × ℝ × ℝ × ℝ :=
  let batch_size := x.length
  let idx_beg := chunk * chunk_size
  let idx_end := min ((chunk + 1) * chunk_size) batch_size
  let w : ℝ := ((idx_end - idx_beg : ℕ) : ℝ)
  let x_in := (x.drop idx_beg).take (idx_end - idx_beg)
  let m_in := m.map (fun mm => (mm.drop idx_beg).take (idx_end - idx_beg))
  let r := vaegan_chunk fwd beta x_in m_in
  (r.1 * w, r.2.1 * w, r.2.2 * w,
    gaussian_ll_to_mse r.2.1 ((x.headI).length) 1 1 * w)

/-- The dictionary returned by VAEGAN.loss. -/
structure LossDict where
  loss : ℝ
  loss_ll : ℝ
  loss_kl : ℝ
  loss_mse : ℝ
  beta : ℝ

/-- VAEGAN.loss: split the batch along the frame axis into chunks of at
most chunk_size frames, accumulate the per-chunk scalars weighted by
chunk size, and report batch-size-weighted means.  The backward calls
only accumulate gradients and do not affect the returned values. -/
noncomputable def vaegan_loss (fwd : List ℝ → List ℝ × List ℝ × List ℝ)
    (x : List (List ℝ)) (m : Option (List (List ℝ))) (beta : ℝ)
    (chunk_size : ℕ) : LossDict :=
  let batch_size := x.length
  let n_chunks := (batch_size + chunk_size - 1) / chunk_size
  let r := (List.range n_chunks).foldl
    (fun acc c =>
      (acc.1 + (chunk_contrib fwd x m beta chunk_size c).1,
       acc.2.1 + (chunk_contrib fwd x m beta chunk_size c).2.1,
       acc.2.2.1 + (chunk_contrib fwd x m beta chunk_size c).2.2.1,
       acc.2.2.2 + (chunk_contrib fwd x m beta chunk_size c).2.2.2))
    ((0 : ℝ), (0 : ℝ), (0 : ℝ), (0 : ℝ))
  ⟨r.1 / batch_size, r.2.1 / batch_size, r.2.2.1 / batch_size, r.2.2.2 / batch_size, beta⟩

/-! ### Per-frame views used to state and prove the batch lemmas -/

/-- The contribution of a single frame to gaussian_ll: the per-frame
log-likelihood for a given dimension count n_dims, with the optional
per-frame mask row. -/
noncomputable def ll_frame (std : ℝ) (n_dims : ℝ) (xi xhi : List ℝ)
    (mi : Option (List ℝ)) : ℝ :=
  -(0.5 * LN2PI + 0.5 * Real.log (std ^ 2)) * n_dims - (0.5 / std ^ 2) *
    (match mi with
     | some mr => (zipWith3 (fun a b c => ((a - b) ^ 2) * c) xi xhi mr).sum
     | none => (List.zipWith (fun a b => (a - b) ^ 2) xi xhi).sum)

/-- The contribution of a single frame to kl_div_to_std_normal. -/
noncomputable def kl_frame (mui lvi : List ℝ) : ℝ :=
  0.5 * (List.zipWith (fun m v => Real.exp v - v + m ^ 2 - 1) mui lvi).sum

/-! ### Generic list lemmas -/

theorem length_zipWith3 {A B C D : Type} (f : A → B → C → D) :
    ∀ (as : List A) (bs : List B) (cs : List C),
      (zipWith3 f as bs cs).length = min as.length (min bs.length cs.length)
  | [], _, _ => by cases ‹List B› <;> cases ‹List C› <;> simp [zipWith3]
  | _ :: _, [], _ => by simp [zipWith3]
  | _ :: _, _ :: _, [] => by simp [zipWith3]
  | a :: as, b :: bs, c :: cs => by
      simp only [zipWith3, List.length_cons, length_zipWith3 f as bs cs]
      omega

theorem getD_zipWith3 {A B C D : Type} (f : A → B → C → D) :
    ∀ (as : List A) (bs : List B) (cs : List C) (j : ℕ),
      j < as.length → j < bs.length → j < cs.length →
      ∀ (da : A) (db : B) (dc : C) (dd : D),
        (zipWith3 f as bs cs).getD j dd = f (as.getD j da) (bs.getD j db) (cs.getD j dc)
  | [], _, _, j => by intro h; simp at h
  | _ :: _, [], _, j => by intro _ h; simp at h
  | _ :: _, _ :: _, [], j => by intro _ _ h; simp at h
  | a :: as, b :: bs, c :: cs, 0 => by
      intro _ _ _ da db dc dd; simp [zipWith3]
  | a :: as, b :: bs, c :: cs, j + 1 => by
      intro ha hb hc da db dc dd
      simp only [zipWith3, List.getD_cons_succ]
      exact getD_zipWith3 f as bs cs j (by simpa using ha) (by simpa using hb)
        (by simpa using hc) da db dc dd

theorem getD_map_lt {A B : Type} (f : A → B) (l : List A) (j : ℕ)
    (h : j < l.length) (da : A) (db : B) :
    (l.map f).getD j db = f (l.getD j da) := by
  rw [List.getD_eq_getElem _ _ (by simpa using h), List.getElem_map,
    List.getD_eq_getElem _ _ h]

theorem getD_zipWith_lt {A B C : Type} (f : A → B → C) (u : List A) (v : List B)
    (j : ℕ) (hu : j < u.length) (hv : j < v.length) (da : A) (db : B) (dc : C) :
    (List.zipWith f u v).getD j dc = f (u.getD j da) (v.getD j db) := by
  rw [List.getD_eq_getElem _ _ (by simp [List.length_zipWith]; omega),
    List.getElem_zipWith, List.getD_eq_getElem _ _ hu, List.getD_eq_getElem _ _ hv]

theorem getD_range_lt (n j : ℕ) (h : j < n) : (List.range n).getD j 0 = j := by
  rw [List.getD_eq_getElem _ _ (by simpa using h), List.getElem_range]

theorem getD_mem {A : Type} (l : List A) (j : ℕ) (d : A) (h : j < l.length) :
    l.getD j d ∈ l := by
  rw [List.getD_eq_getElem _ _ h]
  exact List.getElem_mem h

theorem sum_eq_range_getD {M : Type} [AddCommMonoid M] (l : List M) :
    l.sum = ∑ j ∈ Finset.range l.length, l.getD j 0 := by
  induction l with
  | nil => simp
  | cons a l ih =>
      simp only [List.sum_cons, List.length_cons, Finset.sum_range_succ',
        List.getD_cons_succ, List.getD_cons_zero]
      rw [← ih, add_comm]

theorem sum_zipWith_sub (u v : List ℝ) (h : u.length = v.length) :
    (List.zipWith (fun a b => a - b) u v).sum = u.sum - v.sum := by
  induction u generalizing v with
  | nil => cases v with
    | nil => simp
    | cons b bs => simp at h
  | cons a as ih =>
      cases v with
      | nil => simp at h
      | cons b bs =>
          simp only [List.zipWith_cons_cons, List.sum_cons]
          rw [ih bs (by simpa using h)]; ring

theorem take_one_drop {A : Type} (l : List A) (j : ℕ) (d : A) (h : j < l.length) :
    (l.drop j).take 1 = [l.getD j d] := by
  rw [List.getD_eq_getElem _ _ h, List.drop_eq_getElem_cons h]
  rfl

theorem getD_replicate_lt {A : Type} (n j : ℕ) (a d : A) (h : j < n) :
    (List.replicate n a).getD j d = a := by
  simp [List.getD_eq_getElem?_getD, List.getElem?_replicate, h]

theorem zipWith_replicate_right {A B C : Type} (f : A → B → C) (c : B) :
    ∀ (l : List A), List.zipWith f l (List.replicate l.length c) = l.map (fun a => f a c)
  | [] => by simp
  | a :: as => by
      simp only [List.length_cons, List.replicate_succ, List.zipWith_cons_cons,
        List.map_cons, zipWith_replicate_right f c as]

theorem zipWith_self {A B : Type} (f : A → A → B) :
    ∀ (l : List A), List.zipWith f l l = l.map (fun a => f a a)
  | [] => by simp
  | a :: as => by simp [zipWith_self f as]

theorem foldl_add4 (f : ℕ → ℝ × ℝ × ℝ × ℝ) :
    ∀ (n : ℕ) (init : ℝ × ℝ × ℝ × ℝ),
      (List.range n).foldl
        (fun acc j => (acc.1 + (f j).1, acc.2.1 + (f j).2.1,
          acc.2.2.1 + (f j).2.2.1, acc.2.2.2 + (f j).2.2.2)) init
      = (init.1 + ∑ j ∈ Finset.range n, (f j).1,
         init.2.1 + ∑ j ∈ Finset.range n, (f j).2.1,
         init.2.2.1 + ∑ j ∈ Finset.range n, (f j).2.2.1,
         init.2.2.2 + ∑ j ∈ Finset.range n, (f j).2.2.2)
  | 0, init => by simp
  | n + 1, init => by
      rw [List.range_succ, List.foldl_append, foldl_add4 f n init]
      simp only [List.foldl_cons, List.foldl_nil, Finset.sum_range_succ]
      exact congrArg₂ Prod.mk (by ring) (congrArg₂ Prod.mk (by ring)
        (congrArg₂ Prod.mk (by ring) (by ring)))

theorem n_chunks_one (b cs : ℕ) (hb : 1 ≤ b) (hcs : b ≤ cs) :
    (b + cs - 1) / cs = 1 := by
  have hcs0 : 0 < cs := lt_of_lt_of_le hb hcs
  refine le_antisymm ?_ ?_
  · have : (b + cs - 1) / cs < 2 := by
      rw [Nat.div_lt_iff_lt_mul hcs0]; omega
    omega
  · rw [Nat.le_div_iff_mul_le hcs0]; omega

theorem sum_map_getD (g : List ℝ → ℝ) (rows : List (List ℝ)) :
    (rows.map g).sum = ∑ j ∈ Finset.range rows.length, g (rows.getD j []) := by
  rw [sum_eq_range_getD, List.length_map]
  exact Finset.sum_congr rfl fun j hj =>
    getD_map_lt g rows j (Finset.mem_range.mp hj) [] 0

/-! ### Per-frame characterizations of the batch loss primitives -/

theorem gaussian_ll_eq_sum (y_pred y_mean : List (List ℝ))
    (mo : Option (List (List ℝ))) (std : ℝ)
    (hm : y_mean.length = y_pred.length)
    (hmo : ∀ mm, mo = some mm → mm.length = y_pred.length) :
    gaussian_ll y_pred y_mean mo std
      = (∑ j ∈ Finset.range y_pred.length,
          ll_frame std ((y_pred.headI).length) (y_pred.getD j []) (y_mean.getD j [])
            (mo.map (fun mm => mm.getD j []))) / y_pred.length := by
  cases mo with
  | none =>
      simp only [gaussian_ll, meanR, Option.map_none]
      have hlen : (List.zipWith
          (fun p t => List.zipWith (fun a b => (a - b) ^ 2) p t) y_pred y_mean).length
          = y_pred.length := by
        simp [List.length_zipWith, hm]
      rw [sum_map_getD, List.length_map, hlen]
      refine congrArg₂ (fun (a : ℝ) (b : ℝ) => a / b) ?_ rfl
      refine Finset.sum_congr rfl (fun j hj => ?_)
      have hj' : j < y_pred.length := Finset.mem_range.mp hj
      rw [getD_zipWith_lt _ y_pred y_mean j hj' (by rw [hm]; exact hj') [] [] []]
      rfl
  | some ms =>
      have hms : ms.length = y_pred.length := hmo ms rfl
      simp only [gaussian_ll, meanR, Option.map_some]
      have hlen : (zipWith3
          (fun p t mr => zipWith3 (fun a b c => ((a - b) ^ 2) * c) p t mr)
          y_pred y_mean ms).length = y_pred.length := by
        rw [length_zipWith3, hm, hms]; omega
      rw [sum_map_getD, List.length_map, hlen]
      refine congrArg₂ (fun (a : ℝ) (b : ℝ) => a / b) ?_ rfl
      refine Finset.sum_congr rfl (fun j hj => ?_)
      have hj' : j < y_pred.length := Finset.mem_range.mp hj
      rw [getD_zipWith3 _ y_pred y_mean ms j hj' (by rw [hm]; exact hj')
        (by rw [hms]; exact hj') [] [] [] []]
      rfl

theorem kl_div_eq_sum (mu logvar : List (List ℝ))
    (hlv : logvar.length = mu.length) :
    kl_div_to_std_normal mu logvar
      = (∑ j ∈ Finset.range mu.length,
          kl_frame (mu.getD j []) (logvar.getD j [])) / mu.length := by
  simp only [kl_div_to_std_normal, meanR]
  have hlen : (List.zipWith
      (fun mr vr => 0.5 * (List.zipWith
        (fun m v => Real.exp v - v + m ^ 2 - 1) mr vr).sum) mu logvar).length
      = mu.length := by
    simp [List.length_zipWith, hlv]
  rw [sum_eq_range_getD, hlen]
  refine congrArg₂ (fun (a : ℝ) (b : ℝ) => a / b) ?_ rfl
  refine Finset.sum_congr rfl (fun j hj => ?_)
  have hj' : j < mu.length := Finset.mem_range.mp hj
  rw [getD_zipWith_lt _ mu logvar j hj' (by rw [hlv]; exact hj') [] [] 0]
  rfl

theorem headI_length_of_rect (l : List (List ℝ)) (d : ℕ)
    (h : ∀ r ∈ l, r.length = d) (hne : 1 ≤ l.length) : (l.headI).length = d := by
  cases l with
  | nil => simp at hne
  | cons a t => exact h a (List.mem_cons_self a t)

theorem sum_sq_diff_self (xi : List ℝ) :
    (List.zipWith (fun a b => (a - b) ^ 2) xi xi).sum = 0 := by
  rw [zipWith_self]
  induction xi with
  | nil => simp
  | cons a l ih => simp [ih]

theorem sum_affine_div (n : ℕ) (A k : ℝ) (S : ℕ → ℝ) (hn : (n : ℝ) ≠ 0) :
    (∑ j ∈ Finset.range n, (A - k * S j)) / n
      = A - k * ((∑ j ∈ Finset.range n, S j) / n) := by
  rw [Finset.sum_sub_distrib, Finset.sum_const, Finset.card_range,
    ← Finset.mul_sum, nsmul_eq_mul]
  field_simp
  ring

/-- The mask-free mse equals the frame-wise squared-error sums divided
by the total element count. -/
theorem mse_none_eq (pred mean : List (List ℝ)) (n d : ℕ)
    (hp : pred.length = n) (hq : mean.length = n)
    (hdp : ∀ r ∈ pred, r.length = d) (hdq : ∀ r ∈ mean, r.length = d) :
    mse pred mean none
      = (∑ j ∈ Finset.range n,
          (List.zipWith (fun a b => (a - b) ^ 2) (pred.getD j []) (mean.getD j [])).sum)
        / ((n : ℝ) * d) := by
  simp only [mse, meanR]
  have hrows : (List.zipWith
      (fun p t => List.zipWith (fun a b => (a - b) ^ 2) p t) pred mean).length = n := by
    simp [List.length_zipWith, hp, hq]
  have hsum : (List.zipWith
      (fun p t => List.zipWith (fun a b => (a - b) ^ 2) p t) pred mean).flatten.sum
      = ∑ j ∈ Finset.range n,
          (List.zipWith (fun a b => (a - b) ^ 2) (pred.getD j []) (mean.getD j [])).sum := by
    rw [List.sum_flatten, sum_map_getD, hrows]
    refine Finset.sum_congr rfl (fun j hj => ?_)
    have hj' : j < n := Finset.mem_range.mp hj
    rw [getD_zipWith_lt _ pred mean j (by rw [hp]; exact hj') (by rw [hq]; exact hj') [] [] []]
  have hlen : (List.zipWith
      (fun p t => List.zipWith (fun a b => (a - b) ^ 2) p t) pred mean).flatten.length
      = n * d := by
    rw [List.length_flatten, sum_eq_range_getD, List.length_map, hrows]
    have : ∀ j ∈ Finset.range n,
        ((List.zipWith (fun p t => List.zipWith (fun a b => (a - b) ^ 2) p t)
          pred mean).map List.length).getD j 0 = d := by
      intro j hj
      have hj' : j < n := Finset.mem_range.mp hj
      rw [getD_map_lt List.length _ j (by rw [hrows]; exact hj') []]
      rw [getD_zipWith_lt _ pred mean j (by rw [hp]; exact hj') (by rw [hq]; exact hj') [] [] []]
      have h1 : (pred.getD j []).length = d := hdp _ (getD_mem pred j [] (by rw [hp]; exact hj'))
      have h2 : (mean.getD j []).length = d := hdq _ (getD_mem mean j [] (by rw [hq]; exact hj'))
      simp only [List.length_zipWith]
      rw [h1, h2, min_self]
    rw [Finset.sum_congr rfl this, Finset.sum_const, Finset.card_range, smul_eq_mul]
  rw [hsum, hlen]
  push_cast
  ring

theorem meanR_zipWith_sub (u v : List ℝ) (n : ℕ) (hu : u.length = n) (hv : v.length = n) :
    meanR (List.zipWith (fun a b => a - b) u v) = (u.sum - v.sum) / n := by
  rw [meanR, sum_zipWith_sub u v (hu.trans hv.symm), List.length_zipWith, hu, hv, min_self]

theorem sum_zipWith3_eq (g : ℝ → ℝ → ℝ → ℝ) (u v w : List ℝ) (d : ℕ)
    (hu : u.length = d) (hv : v.length = d) (hw : w.length = d) :
    (zipWith3 g u v w).sum
      = ∑ l ∈ Finset.range d, g (u.getD l 0) (v.getD l 0) (w.getD l 0) := by
  rw [sum_eq_range_getD, length_zipWith3, hu, hv, hw, min_self, min_self]
  exact Finset.sum_congr rfl fun l hl =>
    getD_zipWith3 g u v w l (by rw [hu]; exact Finset.mem_range.mp hl)
      (by rw [hv]; exact Finset.mem_range.mp hl)
      (by rw [hw]; exact Finset.mem_range.mp hl) 0 0 0 0

theorem sum_map_eq (g : ℝ → ℝ) (u : List ℝ) (d : ℕ) (hu : u.length = d) :
    (u.map g).sum = ∑ l ∈ Finset.range d, g (u.getD l 0) := by
  rw [sum_eq_range_getD, List.length_map, hu]
  exact Finset.sum_congr rfl fun l hl =>
    getD_map_lt g u l (by rw [hu]; exact Finset.mem_range.mp hl) 0 0

/-- The diagonal of the summed three-index tensor: entry j is the summed
log-density of sample j under its own posterior. -/
theorem diag_entry (z mu logvar : List (List ℝ)) (n d : ℕ)
    (hz : z.length = n) (hmu : mu.length = n) (hlv : logvar.length = n)
    (hzr : ∀ r ∈ z, r.length = d) (hmur : ∀ r ∈ mu, r.length = d)
    (hlvr : ∀ r ∈ logvar, r.length = d) (j : ℕ) (hj : j < n) :
    (diagL (sum_dim2 (log_qz_prob z mu logvar))).getD j 0
      = ∑ l ∈ Finset.range d, gaussian_log_density_unsummed
          ((z.getD j []).getD l 0) ((mu.getD j []).getD l 0)
          ((logvar.getD j []).getD l 0) := by
  have hlqp : (log_qz_prob z mu logvar).length = n := by simp [log_qz_prob, hz]
  have hsd : (sum_dim2 (log_qz_prob z mu logvar)).length = n := by simp [sum_dim2, hlqp]
  have e1 : (log_qz_prob z mu logvar).getD j []
      = List.zipWith (fun mui lvi =>
          zipWith3 gaussian_log_density_unsummed (z.getD j []) mui lvi) mu logvar := by
    rw [log_qz_prob]
    exact getD_map_lt _ z j (by rw [hz]; exact hj) [] []
  have e3 : ((log_qz_prob z mu logvar).getD j []).getD j []
      = zipWith3 gaussian_log_density_unsummed (z.getD j [])
          (mu.getD j []) (logvar.getD j []) := by
    rw [e1]
    exact getD_zipWith_lt _ mu logvar j (by rw [hmu]; exact hj)
      (by rw [hlv]; exact hj) [] [] []
  have e0 : (diagL (sum_dim2 (log_qz_prob z mu logvar))).getD j 0
      = ((sum_dim2 (log_qz_prob z mu logvar)).getD j []).getD j 0 := by
    rw [diagL, hsd, getD_map_lt _ (List.range n) j (by simpa using hj) 0 0,
      getD_range_lt n j hj]
  have e2 : (sum_dim2 (log_qz_prob z mu logvar)).getD j []
      = ((log_qz_prob z mu logvar).getD j []).map List.sum := by
    rw [sum_dim2]
    exact getD_map_lt _ _ j (by rw [hlqp]; exact hj) [] []
  have e4 : (((log_qz_prob z mu logvar).getD j []).map List.sum).getD j 0
      = List.sum (((log_qz_prob z mu logvar).getD j []).getD j []) := by
    refine getD_map_lt List.sum _ j ?_ [] 0
    rw [e1]
    simp [List.length_zipWith, hmu, hlv, hj]
  rw [e0, e2, e4, e3]
  exact sum_zipWith3_eq _ _ _ _ d (hzr _ (getD_mem z j [] (by rw [hz]; exact hj)))
    (hmur _ (getD_mem mu j [] (by rw [hmu]; exact hj)))
    (hlvr _ (getD_mem logvar j [] (by rw [hlv]; exact hj)))

/-- Entry j of the standard-normal log-density vector. -/
theorem pz_entry (z : List (List ℝ)) (n d : ℕ) (hz : z.length = n)
    (hzr : ∀ r ∈ z, r.length = d) (j : ℕ) (hj : j < n) :
    (z.map (fun zj => (zj.map gaussian_log_density_unsummed_std_normal).sum)).getD j 0
      = ∑ l ∈ Finset.range d,
          gaussian_log_density_unsummed_std_normal ((z.getD j []).getD l 0) := by
  rw [getD_map_lt _ z j (by rw [hz]; exact hj) [] 0]
  exact sum_map_eq _ _ d (hzr _ (getD_mem z j [] (by rw [hz]; exact hj)))

/-- The three terms returned by decomposed_kl telescope: their sum is the
mean over frames of the summed own-posterior log-density minus the
summed standard-normal log-density, the intermediate aggregate-posterior
vectors cancelling exactly. -/
theorem decomposed_kl_sum_telescopes (z mu logvar : List (List ℝ)) (n d : ℕ)
    (hz : z.length = n) (hmu : mu.length = n) (hlv : logvar.length = n)
    (hzr : ∀ r ∈ z, r.length = d) (hmur : ∀ r ∈ mu, r.length = d)
    (hlvr : ∀ r ∈ logvar, r.length = d) :
    (decomposed_kl z mu logvar).1 + (decomposed_kl z mu logvar).2.1
      + (decomposed_kl z mu logvar).2.2
    = (∑ j ∈ Finset.range n,
        ((∑ l ∈ Finset.range d, gaussian_log_density_unsummed
            ((z.getD j []).getD l 0) ((mu.getD j []).getD l 0)
            ((logvar.getD j []).getD l 0))
         - ∑ l ∈ Finset.range d, gaussian_log_density_unsummed_std_normal
            ((z.getD j []).getD l 0))) / n := by
  have hlqp : (log_qz_prob z mu logvar).length = n := by simp [log_qz_prob, hz]
  have hsd : (sum_dim2 (log_qz_prob z mu logvar)).length = n := by simp [sum_dim2, hlqp]
  have hA : (diagL (sum_dim2 (log_qz_prob z mu logvar))).length = n := by simp [diagL, hsd]
  have hB : ((sum_dim2 (log_qz_prob z mu logvar)).map logsumexp).length = n := by
    simp [hsd]
  have hC : ((log_qz_prob z mu logvar).map (fun mj => (lse_dim1 mj).sum)).length = n := by
    simp [hlqp]
  have hD : (z.map (fun zj =>
      (zj.map gaussian_log_density_unsummed_std_normal).sum)).length = n := by simp [hz]
  simp only [decomposed_kl]
  rw [meanR_zipWith_sub _ _ n hA hB, meanR_zipWith_sub _ _ n hB hC,
    meanR_zipWith_sub _ _ n hC hD, div_add_div_same, div_add_div_same]
  refine congrArg (fun x : ℝ => x / (n : ℝ)) ?_
  have hAsum : (diagL (sum_dim2 (log_qz_prob z mu logvar))).sum
      = ∑ j ∈ Finset.range n,
          ∑ l ∈ Finset.range d, gaussian_log_density_unsummed
            ((z.getD j []).getD l 0) ((mu.getD j []).getD l 0)
            ((logvar.getD j []).getD l 0) := by
    rw [sum_eq_range_getD, hA]
    exact Finset.sum_congr rfl fun j hj =>
      diag_entry z mu logvar n d hz hmu hlv hzr hmur hlvr j (Finset.mem_range.mp hj)
  have hDsum : (z.map (fun zj =>
      (zj.map gaussian_log_density_unsummed_std_normal).sum)).sum
      = ∑ j ∈ Finset.range n,
          ∑ l ∈ Finset.range d,
            gaussian_log_density_unsummed_std_normal ((z.getD j []).getD l 0) := by
    rw [sum_eq_range_getD, hD]
    exact Finset.sum_congr rfl fun j hj =>
      pz_entry z n d hz hzr j (Finset.mem_range.mp hj)
  rw [hAsum, hDsum, Finset.sum_sub_distrib]
  ring

/-! ### Claim theorems -/

theorem gaussian_ll_singleton (p t : List ℝ) (mo : Option (List ℝ)) (std : ℝ) :
    gaussian_ll [p] [t] (mo.map (fun mr => [mr])) std = ll_frame std p.length p t mo := by
  cases mo with
  | none =>
      simp [gaussian_ll, meanR, ll_frame, zipWith3]
  | some mr =>
      simp [gaussian_ll, meanR, ll_frame, zipWith3]

theorem kl_div_singleton (mui lvi : List ℝ) :
    kl_div_to_std_normal [mui] [lvi] = kl_frame mui lvi := by
  simp [kl_div_to_std_normal, meanR, kl_frame]

theorem vaegan_chunk_eq (fwd : List ℝ → List ℝ × List ℝ × List ℝ)
    (x : List (List ℝ)) (m : Option (List (List ℝ))) (beta : ℝ) :
    vaegan_chunk fwd beta x m
      = (-(gaussian_ll x (x.map (fun xi => (fwd xi).1)) m 1)
          + beta * kl_div_to_std_normal (x.map (fun xi => (fwd xi).2.1))
              (x.map (fun xi => (fwd xi).2.2)),
         gaussian_ll x (x.map (fun xi => (fwd xi).1)) m 1,
         kl_div_to_std_normal (x.map (fun xi => (fwd xi).2.1))
           (x.map (fun xi => (fwd xi).2.2))) := by
  simp only [vaegan_chunk, List.map_map]
  rfl

/-- When the chunk size covers the whole batch, chunk 0 processes the
whole batch at weight batch_size. -/
theorem chunk_contrib_zero_full (fwd : List ℝ → List ℝ × List ℝ × List ℝ)
    (x : List (List ℝ)) (m : Option (List (List ℝ))) (beta : ℝ) (cs : ℕ)
    (hcs : x.length ≤ cs)
    (hm : ∀ mm, m = some mm → mm.length = x.length) :
    chunk_contrib fwd x m beta cs 0
      = ((vaegan_chunk fwd beta x m).1 * x.length,
         (vaegan_chunk fwd beta x m).2.1 * x.length,
         (vaegan_chunk fwd beta x m).2.2 * x.length,
         gaussian_ll_to_mse (vaegan_chunk fwd beta x m).2.1 ((x.headI).length) 1 1
           * x.length) := by
  simp only [chunk_contrib, Nat.zero_mul, Nat.sub_zero, List.drop_zero]
  have e1 : min ((0 + 1) * cs) x.length = x.length := by omega
  rw [e1, List.take_length]
  have e2 : m.map (fun mm => mm.take x.length) = m := by
    cases m with
    | none => rfl
    | some mm => simp [List.take_of_length_le (le_of_eq (hm mm rfl))]
  rw [e2]

/-- With a chunk size at least the batch size, vaegan_loss reduces to a
single chunk over the full batch. -/
theorem vaegan_loss_single_chunk (fwd : List ℝ → List ℝ × List ℝ × List ℝ)
    (x : List (List ℝ)) (m : Option (List (List ℝ))) (beta : ℝ) (cs : ℕ)
    (hb : 1 ≤ x.length) (hcs : x.length ≤ cs)
    (hm : ∀ mm, m = some mm → mm.length = x.length) :
    vaegan_loss fwd x m beta cs
      = ⟨(vaegan_chunk fwd beta x m).1,
         (vaegan_chunk fwd beta x m).2.1,
         (vaegan_chunk fwd beta x m).2.2,
         gaussian_ll_to_mse (vaegan_chunk fwd beta x m).2.1 ((x.headI).length) 1 1,
         beta⟩ := by
  have hnR : (x.length : ℝ) ≠ 0 := Nat.cast_ne_zero.mpr (by omega)
  simp only [vaegan_loss, n_chunks_one x.length cs hb hcs,
    show List.range 1 = [0] by simp [List.range_succ],
    List.foldl_cons, List.foldl_nil,
    chunk_contrib_zero_full fwd x m beta cs hcs hm]
  simp only [zero_add]
  rw [mul_div_cancel_right₀ _ hnR, mul_div_cancel_right₀ _ hnR,
    mul_div_cancel_right₀ _ hnR, mul_div_cancel_right₀ _ hnR]

/-- With chunk size 1, chunk j processes exactly frame j at weight 1. -/
theorem chunk_contrib_unit (fwd : List ℝ → List ℝ × List ℝ × List ℝ)
    (x : List (List ℝ)) (m : Option (List (List ℝ))) (beta : ℝ) (j : ℕ)
    (hj : j < x.length)
    (hm : ∀ mm, m = some mm → mm.length = x.length) :
    chunk_contrib fwd x m beta 1 j
      = (-(ll_frame 1 ((x.getD j []).length) (x.getD j []) ((fwd (x.getD j [])).1)
            (m.map (fun mm => mm.getD j [])))
          + beta * kl_frame ((fwd (x.getD j [])).2.1) ((fwd (x.getD j [])).2.2),
         ll_frame 1 ((x.getD j []).length) (x.getD j []) ((fwd (x.getD j [])).1)
           (m.map (fun mm => mm.getD j [])),
         kl_frame ((fwd (x.getD j [])).2.1) ((fwd (x.getD j [])).2.2),
         gaussian_ll_to_mse (ll_frame 1 ((x.getD j []).length) (x.getD j [])
           ((fwd (x.getD j [])).1) (m.map (fun mm => mm.getD j [])))
           ((x.headI).length) 1 1) := by
  simp only [chunk_contrib, Nat.mul_one]
  have e1 : min (j + 1) x.length = j + 1 := by omega
  rw [e1]
  have e2 : j + 1 - j = 1 := by omega
  rw [e2]
  rw [take_one_drop x j [] hj]
  have e3 : m.map (fun mm => (mm.drop j).take 1) = m.map (fun mm => [mm.getD j []]) := by
    cases m with
    | none => rfl
    | some mm =>
        simp only [Option.map_some']
        rw [take_one_drop mm j [] (by rw [hm mm rfl]; exact hj)]
  rw [e3]
  have e4 : m.map (fun mm => [mm.getD j []])
      = (m.map (fun mm => mm.getD j [])).map (fun mr => [mr]) := by
    cases m <;> rfl
  have e5 : vaegan_chunk fwd beta [x.getD j []] (m.map (fun mm => [mm.getD j []]))
      = (-(ll_frame 1 ((x.getD j []).length) (x.getD j []) ((fwd (x.getD j [])).1)
            (m.map (fun mm => mm.getD j [])))
          + beta * kl_frame ((fwd (x.getD j [])).2.1) ((fwd (x.getD j [])).2.2),
         ll_frame 1 ((x.getD j []).length) (x.getD j []) ((fwd (x.getD j [])).1)
           (m.map (fun mm => mm.getD j [])),
         kl_frame ((fwd (x.getD j [])).2.1) ((fwd (x.getD j [])).2.2)) := by
    rw [vaegan_chunk_eq]
    simp only [List.map_cons, List.map_nil]
    rw [e4, gaussian_ll_singleton, kl_div_singleton]
  rw [e5]
  norm_num

/-- With chunk size 1, vaegan_loss is the batch mean of the per-frame
contributions. -/
theorem vaegan_loss_unit_chunks (fwd : List ℝ → List ℝ × List ℝ × List ℝ)
    (x : List (List ℝ)) (m : Option (List (List ℝ))) (beta : ℝ)
    (hm : ∀ mm, m = some mm → mm.length = x.length) :
    vaegan_loss fwd x m beta 1
      = ⟨(∑ j ∈ Finset.range x.length,
            (-(ll_frame 1 ((x.getD j []).length) (x.getD j []) ((fwd (x.getD j [])).1)
                (m.map (fun mm => mm.getD j [])))
              + beta * kl_frame ((fwd (x.getD j [])).2.1) ((fwd (x.getD j [])).2.2)))
          / x.length,
         (∑ j ∈ Finset.range x.length,
            ll_frame 1 ((x.getD j []).length) (x.getD j []) ((fwd (x.getD j [])).1)
              (m.map (fun mm => mm.getD j []))) / x.length,
         (∑ j ∈ Finset.range x.length,
            kl_frame ((fwd (x.getD j [])).2.1) ((fwd (x.getD j [])).2.2)) / x.length,
         (∑ j ∈ Finset.range x.length,
            gaussian_ll_to_mse (ll_frame 1 ((x.getD j []).length) (x.getD j [])
              ((fwd (x.getD j [])).1) (m.map (fun mm => mm.getD j [])))
              ((x.headI).length) 1 1) / x.length,
         beta⟩ := by
  simp only [vaegan_loss]
  have en : (x.length + 1 - 1) / 1 = x.length := by omega
  rw [en, foldl_add4 (chunk_contrib fwd x m beta 1) x.length ((0 : ℝ), (0 : ℝ), (0 : ℝ), (0 : ℝ))]
  simp only [zero_add, LossDict.mk.injEq]
  refine ⟨?_, ?_, ?_, ?_, trivial⟩ <;>
    exact congrArg (fun s : ℝ => s / (x.length : ℝ))
      (Finset.sum_congr rfl (fun j hj => by
        rw [chunk_contrib_unit fwd x m beta j (Finset.mem_range.mp hj) hm]))

/-- getD of a replicated zero row is zero whether or not the index is in
range, since the default is also zero. -/
theorem getD_replicate_zero (X l : ℕ) : (List.replicate X (0 : ℝ)).getD l 0 = 0 := by
  rcases lt_or_ge l X with h | h
  · exact getD_replicate_lt X l 0 0 h
  · rw [List.getD_eq_getElem?_getD, List.getElem?_replicate, if_neg (Nat.not_lt.mpr h)]
    rfl

/-- Claim C3, counterexample: for the single-frame batch z = [[0]],
mu = [[0]], logvar = [[1]] the sum of the three decomposed_kl values is
-1/2 while the direct KL-to-standard-normal average is (e - 2)/2; they
differ by (e - 1)/2 > 1e-5, refuting the claimed equality up to 1e-5. -/
theorem C3_counterexample_decomposition_vs_kl :
    (0.00001 : ℝ) < |((decomposed_kl [[0]] [[0]] [[(1 : ℝ)]]).1
      + (decomposed_kl [[0]] [[0]] [[1]]).2.1
      + (decomposed_kl [[0]] [[0]] [[1]]).2.2)
      - kl_div_to_std_normal [[0]] [[1]]| := by
  have hval : ((decomposed_kl [[0]] [[0]] [[(1 : ℝ)]]).1
      + (decomposed_kl [[0]] [[0]] [[1]]).2.1
      + (decomposed_kl [[0]] [[0]] [[1]]).2.2)
      - kl_div_to_std_normal [[0]] [[1]] = 0.5 - 0.5 * Real.exp 1 := by
    simp [decomposed_kl, log_qz_prob, sum_dim2, diagL, lse_dim1, logsumexp, meanR,
      kl_div_to_std_normal, gaussian_log_density_unsummed,
      gaussian_log_density_unsummed_std_normal, zipWith3, List.range_succ, Real.log_exp]
    ring
  rw [hval]
  have h2 : (2 : ℝ) ≤ Real.exp 1 := by
    have h := Real.add_one_le_exp (1 : ℝ); linarith
  rw [abs_of_nonpos (by linarith)]
  linarith

/-- Claim C3, amended: the sum of the three decomposed_kl values is the
single-sample estimate of the KL, not its closed form, so the claimed
equality holds in the degenerate case where the sample equals the
posterior mean and the log-variance is zero: there the sum equals
kl_div_to_std_normal exactly, for every batch. -/
theorem C3_amended_sum_equals_kl_at_mean (mu : List (List ℝ)) (n d : ℕ)
    (hmu : mu.length = n) (hr : ∀ r ∈ mu, r.length = d) :
    (decomposed_kl mu mu (List.replicate n (List.replicate d 0))).1
      + (decomposed_kl mu mu (List.replicate n (List.replicate d 0))).2.1
      + (decomposed_kl mu mu (List.replicate n (List.replicate d 0))).2.2
    = kl_div_to_std_normal mu (List.replicate n (List.replicate d 0)) := by
  have hrepl : (List.replicate n (List.replicate d (0 : ℝ))).length = n := by simp
  have hrepr : ∀ r ∈ List.replicate n (List.replicate d (0 : ℝ)), r.length = d := by
    intro r hr'
    rw [List.eq_of_mem_replicate hr']
    simp
  rw [decomposed_kl_sum_telescopes mu mu _ n d hmu hmu hrepl hr hr hrepr]
  rw [kl_div_eq_sum mu _ (by rw [hrepl, hmu]), hmu]
  refine congrArg (fun x : ℝ => x / (n : ℝ)) ?_
  refine Finset.sum_congr rfl (fun j hj => ?_)
  have hj' : j < n := Finset.mem_range.mp hj
  have hmuj : (mu.getD j []).length = d := hr _ (getD_mem mu j [] (by rw [hmu]; exact hj'))
  have hlvj : (List.replicate n (List.replicate d (0 : ℝ))).getD j []
      = List.replicate d 0 := getD_replicate_lt n j _ [] hj'
  rw [hlvj, kl_frame]
  rw [show List.replicate d (0 : ℝ) = List.replicate (mu.getD j []).length 0 by rw [hmuj]]
  rw [zipWith_replicate_right, sum_map_eq _ _ d hmuj]
  rw [← Finset.sum_sub_distrib, Finset.mul_sum]
  refine Finset.sum_congr rfl (fun l hl => ?_)
  rw [getD_replicate_zero]
  simp [gaussian_log_density_unsummed, gaussian_log_density_unsummed_std_normal,
    Real.exp_zero]
  ring

theorem C3_amended_sum_equals_kl_at_mean_witness :
    (decomposed_kl [[1]] [[1]] (List.replicate 1 (List.replicate 1 0))).1
      + (decomposed_kl [[1]] [[1]] (List.replicate 1 (List.replicate 1 0))).2.1
      + (decomposed_kl [[1]] [[1]] (List.replicate 1 (List.replicate 1 0))).2.2
    = kl_div_to_std_normal [[1]] (List.replicate 1 (List.replicate 1 0)) :=
  C3_amended_sum_equals_kl_at_mean [[1]] 1 1 rfl (by simp)

/-- Claim C2: with a deterministic frame-wise forward pass (the
sampling-disabled scenario), the chunked loss with a chunk size covering
the whole batch returns exactly the same loss, loss_ll and loss_kl
values as with chunk size 1. -/
theorem C2_chunked_loss_neutral (fwd : List ℝ → List ℝ × List ℝ × List ℝ)
    (x : List (List ℝ)) (m : Option (List (List ℝ))) (beta : ℝ)
    (chunk_size d : ℕ)
    (hb : 1 ≤ x.length) (hcs : x.length ≤ chunk_size)
    (hrect : ∀ r ∈ x, r.length = d)
    (hm : ∀ mm, m = some mm → mm.length = x.length) :
    (vaegan_loss fwd x m beta chunk_size).loss = (vaegan_loss fwd x m beta 1).loss
    ∧ (vaegan_loss fwd x m beta chunk_size).loss_ll
        = (vaegan_loss fwd x m beta 1).loss_ll
    ∧ (vaegan_loss fwd x m beta chunk_size).loss_kl
        = (vaegan_loss fwd x m beta 1).loss_kl := by
  have hLL : gaussian_ll x (x.map (fun xi => (fwd xi).1)) m 1
      = (∑ j ∈ Finset.range x.length,
          ll_frame 1 ((x.getD j []).length) (x.getD j []) ((fwd (x.getD j [])).1)
            (m.map (fun mm => mm.getD j []))) / x.length := by
    rw [gaussian_ll_eq_sum x _ m 1 (by simp) hm]
    refine congrArg (fun s : ℝ => s / (x.length : ℝ)) ?_
    refine Finset.sum_congr rfl (fun j hj => ?_)
    have hj' : j < x.length := Finset.mem_range.mp hj
    rw [getD_map_lt (fun xi => (fwd xi).1) x j hj' [] []]
    have hnd : (x.headI).length = (x.getD j []).length := by
      rw [headI_length_of_rect x d hrect hb, hrect _ (getD_mem x j [] hj')]
    rw [hnd]
  have hKL : kl_div_to_std_normal (x.map (fun xi => (fwd xi).2.1))
      (x.map (fun xi => (fwd xi).2.2))
      = (∑ j ∈ Finset.range x.length,
          kl_frame ((fwd (x.getD j [])).2.1) ((fwd (x.getD j [])).2.2)) / x.length := by
    rw [kl_div_eq_sum _ _ (by simp)]
    simp only [List.length_map]
    refine congrArg (fun s : ℝ => s / (x.length : ℝ)) ?_
    refine Finset.sum_congr rfl (fun j hj => ?_)
    have hj' : j < x.length := Finset.mem_range.mp hj
    rw [getD_map_lt (fun xi => (fwd xi).2.1) x j hj' [] [],
      getD_map_lt (fun xi => (fwd xi).2.2) x j hj' [] []]
  rw [vaegan_loss_single_chunk fwd x m beta chunk_size hb hcs hm,
    vaegan_loss_unit_chunks fwd x m beta hm, vaegan_chunk_eq]
  refine ⟨?_, ?_, ?_⟩
  · dsimp only
    rw [hLL, hKL, Finset.sum_add_distrib, Finset.sum_neg_distrib,
      ← Finset.mul_sum, add_div, neg_div, mul_div_assoc]
  · dsimp only
    rw [hLL]
  · dsimp only
    rw [hKL]

theorem C2_chunked_loss_neutral_witness :
    (vaegan_loss (fun r => (r, r, r)) [[1], [0]] none 1 2).loss
        = (vaegan_loss (fun r => (r, r, r)) [[1], [0]] none 1 1).loss
    ∧ (vaegan_loss (fun r => (r, r, r)) [[1], [0]] none 1 2).loss_ll
        = (vaegan_loss (fun r => (r, r, r)) [[1], [0]] none 1 1).loss_ll
    ∧ (vaegan_loss (fun r => (r, r, r)) [[1], [0]] none 1 2).loss_kl
        = (vaegan_loss (fun r => (r, r, r)) [[1], [0]] none 1 1).loss_kl :=
  C2_chunked_loss_neutral (fun r => (r, r, r)) [[1], [0]] none 1 2 1
    (by norm_num) (by norm_num)
    (by intro r hr; simp at hr; rcases hr with h | h <;> simp [h])
    (by intro mm h; simp at h)

/-- Claim C4: the combined decomposed_kl entry point returns exactly the
triple of values computed by the standalone index_code_mi,
total_correlation and dimension_wise_kl_to_std_normal functions on the
same input; sharing the log_qz_prob tensor does not change any result. -/
theorem C4_decomposed_kl_matches_standalone (z mu logvar : List (List ℝ)) :
    decomposed_kl z mu logvar
      = (index_code_mi z mu logvar, total_correlation z mu logvar,
         dimension_wise_kl_to_std_normal z mu logvar) := rfl

/-- Claim C10: the three values returned by decomposed_kl telescope
exactly: their sum is the mean over frames j of (sum over dims l of the
log-density of z[j,l] under the posterior of frame j, minus the sum over
l of the standard-normal log-density of z[j,l]); the intermediate logQZ
and logQZProduct terms cancel identically and no constant remains. -/
theorem C10_decomposed_kl_telescopes (z mu logvar : List (List ℝ)) (n d : ℕ)
    (hz : z.length = n) (hmu : mu.length = n) (hlv : logvar.length = n)
    (hzr : ∀ r ∈ z, r.length = d) (hmur : ∀ r ∈ mu, r.length = d)
    (hlvr : ∀ r ∈ logvar, r.length = d) :
    (decomposed_kl z mu logvar).1 + (decomposed_kl z mu logvar).2.1
      + (decomposed_kl z mu logvar).2.2
    = (∑ j ∈ Finset.range n,
        ((∑ l ∈ Finset.range d, gaussian_log_density_unsummed
            ((z.getD j []).getD l 0) ((mu.getD j []).getD l 0)
            ((logvar.getD j []).getD l 0))
         - ∑ l ∈ Finset.range d, gaussian_log_density_unsummed_std_normal
            ((z.getD j []).getD l 0))) / n :=
  decomposed_kl_sum_telescopes z mu logvar n d hz hmu hlv hzr hmur hlvr

theorem C10_decomposed_kl_telescopes_witness :
    (decomposed_kl [[0]] [[0]] [[(0 : ℝ)]]).1 + (decomposed_kl [[0]] [[0]] [[0]]).2.1
      + (decomposed_kl [[0]] [[0]] [[0]]).2.2
    = (∑ j ∈ Finset.range 1,
        ((∑ l ∈ Finset.range 1, gaussian_log_density_unsummed
            ((([[(0 : ℝ)]]).getD j []).getD l 0) ((([[(0 : ℝ)]]).getD j []).getD l 0)
            ((([[(0 : ℝ)]]).getD j []).getD l 0))
         - ∑ l ∈ Finset.range 1, gaussian_log_density_unsummed_std_normal
            ((([[(0 : ℝ)]]).getD j []).getD l 0))) / (1 : ℕ) :=
  C10_decomposed_kl_telescopes [[0]] [[0]] [[0]] 1 1 rfl rfl rfl
    (by simp) (by simp) (by simp)

/-- Claim C7: constructing the VAEGAN trainer with model_type linear
fails with the fatal not-implemented error at construction time, before
the beta schedule is built (the check is the first statement of the
constructor and the Except value carries no schedule). -/
theorem C7_linear_model_type_fatal (hp : Hparams) (h : hp.model_type = "linear") :
    vaegan_init hp = Except.error InitError.notImplementedError := by
  simp [vaegan_init, h]

theorem C7_linear_model_type_fatal_witness :
    vaegan_init ⟨"linear", 2, 4, 6⟩ = Except.error InitError.notImplementedError :=
  C7_linear_model_type_fatal ⟨"linear", 2, 4, 6⟩ rfl

/-- Claim C1, evaluation at the failing input: with targetBeta = 2,
annealEpochs = 4, maxEpochs = 6 the constructor succeeds and builds
linspace(0, 2, 4) followed by ones, so schedule[4] is 1 and not the
target beta 2 claimed by the specification. -/
theorem C1_beta_schedule_at_failing_input :
    vaegan_init ⟨"conv", 2, 4, 6⟩
      = Except.ok [0, 2/3, 4/3, 2, 1, 1, 1, 1, 1, 1, 1]
    ∧ (beta_vals ⟨"conv", 2, 4, 6⟩).getD 4 0 = 1
    ∧ (beta_vals ⟨"conv", 2, 4, 6⟩).getD 4 0 ≠ 2 := by
  have hb : beta_vals ⟨"conv", 2, 4, 6⟩ = [0, 2/3, 4/3, 2, 1, 1, 1, 1, 1, 1, 1] := by
    norm_num [beta_vals, linspace, List.range_succ, List.replicate]
  refine ⟨?_, ?_, ?_⟩
  · rw [vaegan_init, if_neg (by decide)]
    exact congrArg Except.ok hb
  · rw [hb]; rfl
  · rw [hb]; decide

/-- Claim C8: kl_div_to_std_normal returns 0 on all-zero mu and logvar
for every batch shape with at least one frame, and in general returns
the batch mean of 0.5 * sum over dims of (exp(logvar) - logvar + mu^2 - 1). -/
theorem C8_kl_div_closed_form :
    (∀ n d : ℕ, 1 ≤ n →
      kl_div_to_std_normal (List.replicate n (List.replicate d (0 : ℝ)))
        (List.replicate n (List.replicate d 0)) = 0)
    ∧ (∀ (mu logvar : List (List ℝ)) (n d : ℕ),
        mu.length = n → logvar.length = n →
        (∀ r ∈ mu, r.length = d) → (∀ r ∈ logvar, r.length = d) →
        kl_div_to_std_normal mu logvar
          = (∑ j ∈ Finset.range n, 0.5 * ∑ l ∈ Finset.range d,
              (Real.exp ((logvar.getD j []).getD l 0) - (logvar.getD j []).getD l 0
                + ((mu.getD j []).getD l 0) ^ 2 - 1)) / n) := by
  constructor
  · intro n d hn
    simp [kl_div_to_std_normal, meanR, zipWith_self, List.map_replicate,
      List.sum_replicate, Real.exp_zero]
  · intro mu logvar n d hmu hlv hmur hlvr
    rw [kl_div_eq_sum mu logvar (by rw [hlv, hmu]), hmu]
    refine congrArg₂ (fun (a : ℝ) (b : ℝ) => a / b) ?_ rfl
    refine Finset.sum_congr rfl (fun j hj => ?_)
    have hj' : j < mu.length := by rw [hmu]; exact Finset.mem_range.mp hj
    have hmud : (mu.getD j []).length = d := hmur _ (getD_mem mu j [] hj')
    have hlvd : (logvar.getD j []).length = d := by
      refine hlvr _ (getD_mem logvar j [] ?_); rw [hlv, ← hmu]; exact hj'
    simp only [kl_frame]
    refine congrArg (fun (a : ℝ) => 0.5 * a) ?_
    rw [sum_eq_range_getD, List.length_zipWith, hmud, hlvd, min_self]
    refine Finset.sum_congr rfl (fun l hl => ?_)
    have hl' : l < d := Finset.mem_range.mp hl
    rw [getD_zipWith_lt _ _ _ l (by rw [hmud]; exact hl') (by rw [hlvd]; exact hl') 0 0 0]

theorem C8_kl_div_closed_form_witness :
    kl_div_to_std_normal (List.replicate 3 (List.replicate 2 (0 : ℝ)))
      (List.replicate 3 (List.replicate 2 0)) = 0 :=
  C8_kl_div_closed_form.1 3 2 (by norm_num)

/-- Claim C9: subspace_overlap of the single orthonormal row [1,0,0]
with itself: the stacked Gram matrix deviates from the identity only in
the two off-diagonal entries, the self dot-products match the identity
diagonal and contribute zero, and the mean of the squared deviations is
one half. -/
theorem C9_subspace_overlap_self_row :
    subspace_overlap [[(1 : ℝ), 0, 0]] [[1, 0, 0]] = 1 / 2
    ∧ ((overlap_mat ([[(1 : ℝ), 0, 0]] ++ [[1, 0, 0]])).getD 0 []).getD 0 1 = 0
    ∧ ((overlap_mat ([[(1 : ℝ), 0, 0]] ++ [[1, 0, 0]])).getD 1 []).getD 1 1 = 0 := by
  refine ⟨?_, ?_, ?_⟩
  · simp [subspace_overlap, overlap_mat, dotL, meanR, List.range_succ]
    norm_num
  · simp [overlap_mat, dotL, List.range_succ]
  · simp [overlap_mat, dotL, List.range_succ]

/-- Claim C5: with a mask, gaussian_ll keeps the full per-frame
dimension count d in the normalizing constant (unreduced by the mask),
while masked-out entries contribute zero squared error: the result is
the constant term times d minus (0.5/std^2) times the mask-weighted
squared-error sum averaged over frames. -/
theorem C5_gaussian_ll_mask_full_n_dims (pred mean mask : List (List ℝ))
    (n d : ℕ) (std : ℝ)
    (hn : pred.length = n) (hmean : mean.length = n) (hmask : mask.length = n)
    (hn1 : 1 ≤ n)
    (hdp : ∀ r ∈ pred, r.length = d) (hdm : ∀ r ∈ mean, r.length = d)
    (hdk : ∀ r ∈ mask, r.length = d) :
    gaussian_ll pred mean (some mask) std
      = -(0.5 * LN2PI + 0.5 * Real.log (std ^ 2)) * d
        - (0.5 / std ^ 2) *
          ((∑ j ∈ Finset.range n, ∑ l ∈ Finset.range d,
            (mask.getD j []).getD l 0
              * ((pred.getD j []).getD l 0 - (mean.getD j []).getD l 0) ^ 2) / n) := by
  have hn0 : (n : ℝ) ≠ 0 := Nat.cast_ne_zero.mpr (by omega)
  have hheadI : (pred.headI).length = d :=
    headI_length_of_rect pred d hdp (by rw [hn]; exact hn1)
  rw [gaussian_ll_eq_sum pred mean (some mask) std (hmean.trans hn.symm)
    (by intro mm h; rw [← Option.some_inj.mp h]; exact hmask.trans hn.symm), hn]
  have hterm : ∀ j ∈ Finset.range n,
      ll_frame std ((pred.headI).length) (pred.getD j []) (mean.getD j [])
        ((some mask).map (fun mm => mm.getD j []))
      = -(0.5 * LN2PI + 0.5 * Real.log (std ^ 2)) * d
        - (0.5 / std ^ 2) * (∑ l ∈ Finset.range d,
            (mask.getD j []).getD l 0
              * ((pred.getD j []).getD l 0 - (mean.getD j []).getD l 0) ^ 2) := by
    intro j hj
    have hj' : j < n := Finset.mem_range.mp hj
    have h1 : (pred.getD j []).length = d := hdp _ (getD_mem pred j [] (by rw [hn]; exact hj'))
    have h2 : (mean.getD j []).length = d := hdm _ (getD_mem mean j [] (by rw [hmean]; exact hj'))
    have h3 : (mask.getD j []).length = d := hdk _ (getD_mem mask j [] (by rw [hmask]; exact hj'))
    simp only [Option.map_some', ll_frame, hheadI]
    have hsum : (zipWith3 (fun a b c => ((a - b) ^ 2) * c)
        (pred.getD j []) (mean.getD j []) (mask.getD j [])).sum
        = ∑ l ∈ Finset.range d,
            (mask.getD j []).getD l 0
              * ((pred.getD j []).getD l 0 - (mean.getD j []).getD l 0) ^ 2 := by
      rw [sum_eq_range_getD, length_zipWith3, h1, h2, h3, min_self, min_self]
      refine Finset.sum_congr rfl (fun l hl => ?_)
      have hl' : l < d := Finset.mem_range.mp hl
      rw [getD_zipWith3 _ _ _ _ l (by rw [h1]; exact hl') (by rw [h2]; exact hl')
        (by rw [h3]; exact hl') 0 0 0 0]
      ring
    rw [hsum]
  rw [Finset.sum_congr rfl hterm]
  exact sum_affine_div n _ _ _ hn0

theorem C5_gaussian_ll_mask_full_n_dims_witness :
    gaussian_ll [[(1 : ℝ)]] [[0]] (some [[0]]) 1
      = -(0.5 * LN2PI + 0.5 * Real.log ((1 : ℝ) ^ 2)) * (1 : ℕ)
        - (0.5 / (1 : ℝ) ^ 2) *
          ((∑ j ∈ Finset.range 1, ∑ l ∈ Finset.range 1,
            (([[(0 : ℝ)]]).getD j []).getD l 0
              * ((([[(1 : ℝ)]]).getD j []).getD l 0
                  - (([[(0 : ℝ)]]).getD j []).getD l 0) ^ 2) / (1 : ℕ)) :=
  C5_gaussian_ll_mask_full_n_dims [[1]] [[0]] [[0]] 1 1 1 rfl rfl rfl
    (by norm_num) (by simp) (by simp) (by simp)

/-- Claim C6: gaussian_ll_to_mse applied to the mask-free gaussian_ll of
a perfect reconstruction with std 1 is exactly zero, and more generally
it inverts the normalizing constant and variance scaling: it returns the
plain mse divided by the mse variance. -/
theorem C6_gaussian_ll_to_mse_inverts (pred mean : List (List ℝ)) (n d : ℕ)
    (std mstd : ℝ)
    (hp : pred.length = n) (hq : mean.length = n) (hn1 : 1 ≤ n) (hd1 : 1 ≤ d)
    (hdp : ∀ r ∈ pred, r.length = d) (hdq : ∀ r ∈ mean, r.length = d)
    (hstd : std ≠ 0) (hmstd : mstd ≠ 0) :
    gaussian_ll_to_mse (gaussian_ll pred pred none 1) d 1 1 = 0
    ∧ gaussian_ll_to_mse (gaussian_ll pred mean none std) d std mstd
        = mse pred mean none / mstd ^ 2 := by
  have hn0 : (n : ℝ) ≠ 0 := Nat.cast_ne_zero.mpr (by omega)
  have hd0 : (d : ℝ) ≠ 0 := Nat.cast_ne_zero.mpr (by omega)
  have hheadI : (pred.headI).length = d :=
    headI_length_of_rect pred d hdp (by rw [hp]; exact hn1)
  constructor
  · have hll0 : gaussian_ll pred pred none 1
        = -(0.5 * LN2PI + 0.5 * Real.log ((1 : ℝ) ^ 2)) * d := by
      rw [gaussian_ll_eq_sum pred pred none 1 rfl (by intro mm h; simp at h), hp]
      have hterm : ∀ j ∈ Finset.range n,
          ll_frame 1 ((pred.headI).length) (pred.getD j []) (pred.getD j [])
            ((none : Option (List (List ℝ))).map (fun mm => mm.getD j []))
          = -(0.5 * LN2PI + 0.5 * Real.log ((1 : ℝ) ^ 2)) * d := by
        intro j hj
        simp only [Option.map_none', ll_frame, hheadI, sum_sq_diff_self, mul_zero, sub_zero]
      rw [Finset.sum_congr rfl hterm, Finset.sum_const, Finset.card_range, nsmul_eq_mul]
      field_simp
      ring
    rw [hll0]
    simp only [gaussian_ll_to_mse]
    ring
  · have hll : gaussian_ll pred mean none std
        = -(0.5 * LN2PI + 0.5 * Real.log (std ^ 2)) * d
          - (0.5 / std ^ 2) * ((∑ j ∈ Finset.range n,
              (List.zipWith (fun a b => (a - b) ^ 2)
                (pred.getD j []) (mean.getD j [])).sum) / n) := by
      rw [gaussian_ll_eq_sum pred mean none std (hq.trans hp.symm)
        (by intro mm h; simp at h), hp]
      have hterm : ∀ j ∈ Finset.range n,
          ll_frame std ((pred.headI).length) (pred.getD j []) (mean.getD j [])
            ((none : Option (List (List ℝ))).map (fun mm => mm.getD j []))
          = -(0.5 * LN2PI + 0.5 * Real.log (std ^ 2)) * d
            - (0.5 / std ^ 2) * (List.zipWith (fun a b => (a - b) ^ 2)
                (pred.getD j []) (mean.getD j [])).sum := by
        intro j hj
        simp only [Option.map_none', ll_frame, hheadI]
      rw [Finset.sum_congr rfl hterm]
      exact sum_affine_div n _ _ _ hn0
    rw [hll, mse_none_eq pred mean n d hp hq hdp hdq]
    simp only [gaussian_ll_to_mse]
    have hstd2 : std ^ 2 ≠ 0 := pow_ne_zero 2 hstd
    have hmstd2 : mstd ^ 2 ≠ 0 := pow_ne_zero 2 hmstd
    field_simp
    ring

theorem C6_gaussian_ll_to_mse_inverts_witness :
    gaussian_ll_to_mse (gaussian_ll [[(1 : ℝ), 2]] [[(1 : ℝ), 2]] none 1) (2 : ℕ) 1 1 = 0
    ∧ gaussian_ll_to_mse (gaussian_ll [[(1 : ℝ), 2]] [[(0 : ℝ), 0]] none 1) (2 : ℕ) 1 1
        = mse [[(1 : ℝ), 2]] [[(0 : ℝ), 0]] none / 1 ^ 2 :=
  C6_gaussian_ll_to_mse_inverts [[1, 2]] [[0, 0]] 1 2 1 1 rfl rfl
    (by norm_num) (by norm_num) (by simp) (by simp) (by norm_num) (by norm_num)

end Behavenet
